import Mathlib

/-!
Verification of `src/mousehunt/lib.py`.

Shallow embedding conventions:
* A Python `datetime` is modelled as an `Int`: the number of microseconds
  since 0001-01-01T00:00:00 (Python's proleptic-Gregorian ordinal scale);
  Python datetimes are always nonnegative on this scale, and the model
  extends the field computations to all of `Int` with Euclidean div/mod.
* A Python `timedelta` is a signed `Int` of microseconds.
* `np.random.randint(low=920, high=1140, size=n)` is modelled by an
  explicit parameter `draws : List Int` of length `n`; hypotheses record
  the sampling range `920 ≤ d < 1140` where a claim needs it.
* Raising an exception is modelled by `Option`: `none` is a raised error.
-/

namespace Mousehunt

/-- Microseconds per second (`timedelta(seconds=1)`). -/
def usPerSec : Int := 1000000

/-- Microseconds per minute. -/
def usPerMin : Int := 60000000

/-- Microseconds per hour (`timedelta(hours=1)`). -/
def usPerHour : Int := 3600000000

/-- The `minute` field of a datetime, as Python computes it.  (Int `/` and
`%` are Euclidean; on the nonnegative range of Python datetimes they agree
with Python's field arithmetic.) -/
def minuteOf (t : Int) : Int := t / usPerMin % 60

/-- The `second` field of a datetime, as Python computes it. -/
def secondOf (t : Int) : Int := t / usPerSec % 60

/-- `curr_time.replace(minute=0, second=0)`: zero the minute and second
fields.  Note the `microsecond` field is left untouched, exactly as in the
source. -/
def replaceMinSec (t : Int) : Int :=
  t - minuteOf t * usPerMin - secondOf t * usPerSec

/-- `merge(xs, ys)` from the source, generic over the strict-less-than
test `lt` (the `Comparable` protocol bound `T`):

```
res = []; i = j = 0
while i < len(xs) and j < len(ys):
    if xs[i] < ys[j]: res.append(xs[i]); i += 1
    else:             res.append(ys[j]); j += 1
res.extend(xs[i:]); res.extend(ys[j:])
```
-/
def merge {α : Type} (lt : α → α → Bool) : List α → List α → List α
  | [], ys => ys
  | xs, [] => xs
  | x :: xs, y :: ys =>
    if lt x y then x :: merge lt xs (y :: ys)
    else y :: merge lt (x :: xs) ys
termination_by xs ys => xs.length + ys.length

/-- The strict-less-than test on modelled datetimes. -/
def intLt (a b : Int) : Bool := decide (a < b)

/-- `get_start_time(curr_time, offset)`:

```
hour_time = curr_time.replace(minute=0, second=0) + offset
nxt_time = hour_time + timedelta(hours=1)
for time_ in (hour_time, nxt_time):
    if time_ > curr_time: return time_
raise ValueError(...)
```
`none` models the raised `ValueError`.  (The `@cache` memoization has no
observable semantic effect on a pure function and is not modelled.) -/
def get_start_time (curr_time offset : Int) : Option Int :=
  let hour_time := replaceMinSec curr_time + offset
  let nxt_time := hour_time + usPerHour
  if curr_time < hour_time then some hour_time
  else if curr_time < nxt_time then some nxt_time
  else none

/-- Running cumulative sums with accumulator, mirroring `np.cumsum`. -/
def cumsumAux (acc : Int) : List Int → List Int
  | [] => []
  | v :: vs => (acc + v) :: cumsumAux (acc + v) vs

/-- `arr.cumsum()` on the drawn samples. -/
def cumsum (l : List Int) : List Int := cumsumAux 0 l

/-- The hunt-event list `all_times` built inside `get_end_time`:

```
all_times = [curr_time + curr_delay]
for val in arr2.tolist():
    all_times.append(curr_time + +curr_delay + timedelta(seconds=val))
```
(`+ +curr_delay` is a unary plus, i.e. just `curr_delay`.) -/
def allTimes (curr_time curr_delay : Int) (draws : List Int) : List Int :=
  (curr_time + curr_delay) ::
    (cumsum draws).map (fun v => curr_time + curr_delay + v * usPerSec)

/-- The `while nxt_time < final_time` loop building `hourly_times`:
collect `nxt_time`, step by one hour, while strictly below `final_time`. -/
def hourlyTimes (nxt_time final_time : Int) : List Int :=
  if nxt_time < final_time then
    nxt_time :: hourlyTimes (nxt_time + usPerHour) final_time
  else []
termination_by (final_time - nxt_time).toNat
decreasing_by
  simp only [usPerHour]
  omega

/-- Python list indexing `l[i]` with an `int` index: nonnegative indices
from the front, negative indices wrap from the back, `IndexError`
(`none`) when out of range. -/
def pyGet (l : List Int) (i : Int) : Option Int :=
  if 0 ≤ i then l.get? i.toNat
  else if 0 ≤ i + l.length then l.get? (i + (l.length : Int)).toNat
  else none

/-- `get_end_time(n, curr_time, curr_delay, offset)` with the random
draws made explicit (`arr` of size `n` is the parameter `draws`):

```
arr2 = arr.cumsum()
all_times = [curr_time + curr_delay]  (then the append loop)
final_time = all_times[-1]
nxt_time = get_start_time(curr_time, offset)
hourly_times = []  (then the while loop)
all_all_times = merge(all_times, hourly_times)
return all_all_times[n - 1]
```
`none` models an uncaught exception (from `get_start_time` or indexing). -/
def get_end_time (n : Nat) (curr_time curr_delay offset : Int)
    (draws : List Int) : Option Int :=
  let all_times := allTimes curr_time curr_delay draws
  let final_time := all_times.getLast (by simp [all_times, allTimes])
  match get_start_time curr_time offset with
  | none => none
  | some s =>
    let hourly_times := hourlyTimes s final_time
    let all_all_times := merge intLt all_times hourly_times
    pyGet all_all_times ((n : Int) - 1)

/-! ### Lemmas about `merge` -/

theorem merge_length {α : Type} (lt : α → α → Bool) (xs ys : List α) :
    (merge lt xs ys).length = xs.length + ys.length := by
  induction xs, ys using merge.induct lt with
  | case1 ys => simp [merge]
  | case2 xs h => cases xs <;> simp [merge]
  | case3 x xs y ys hlt ih => simp [merge, hlt, ih]; omega
  | case4 x xs y ys hlt ih => simp [merge, hlt, ih]; omega

theorem merge_perm {α : Type} (lt : α → α → Bool) (xs ys : List α) :
    (merge lt xs ys).Perm (xs ++ ys) := by
  induction xs, ys using merge.induct lt with
  | case1 ys => simp [merge]
  | case2 xs h => cases xs <;> simp [merge]
  | case3 x xs y ys hlt ih => simp [merge, hlt]; exact ih
  | case4 x xs y ys hlt ih =>
    simp only [merge, hlt, if_neg, Bool.false_eq_true, not_false_iff]
    exact (ih.cons y).trans List.perm_middle.symm

theorem merge_sorted_of {α : Type} [LinearOrder α] (lt : α → α → Bool)
    (hspec : ∀ a b, lt a b = true ↔ a < b) (xs ys : List α)
    (hxs : xs.Sorted (· ≤ ·)) (hys : ys.Sorted (· ≤ ·)) :
    (merge lt xs ys).Sorted (· ≤ ·) := by
  induction xs, ys using merge.induct lt with
  | case1 ys => rw [merge]; exact hys
  | case2 xs h =>
    cases xs with
    | nil => simp [merge]
    | cons a as => simpa [merge] using hxs
  | case3 x xs y ys hlt ih =>
    rw [List.sorted_cons] at hxs
    have hx : x < y := (hspec x y).mp hlt
    simp only [merge, hlt, if_pos, List.sorted_cons]
    refine ⟨?_, ih hxs.2 hys⟩
    intro b hb
    have hb' := (merge_perm _ xs (y :: ys)).mem_iff.mp hb
    rcases List.mem_append.mp hb' with h1 | h2
    · exact hxs.1 b h1
    · rcases List.mem_cons.mp h2 with rfl | h3
      · exact le_of_lt hx
      · exact le_of_lt (lt_of_lt_of_le hx ((List.sorted_cons.mp hys).1 b h3))
  | case4 x xs y ys hlt ih =>
    rw [List.sorted_cons] at hys
    have hyx : y ≤ x := by
      have := (hspec x y).not.mp (by simp [hlt])
      exact le_of_not_lt this
    simp only [merge, hlt, Bool.false_eq_true, if_neg, not_false_iff, List.sorted_cons]
    refine ⟨?_, ih hxs hys.2⟩
    intro b hb
    have hb' := (merge_perm _ (x :: xs) ys).mem_iff.mp hb
    rcases List.mem_append.mp hb' with h1 | h2
    · rcases List.mem_cons.mp h1 with rfl | h3
      · exact hyx
      · exact hyx.trans ((List.sorted_cons.mp hxs).1 b h3)
    · exact hys.1 b h2

theorem merge_tie {α : Type} (lt : α → α → Bool) (x y : α) (xs ys : List α)
    (h : lt x y = false) :
    merge lt (x :: xs) (y :: ys) = y :: merge lt (x :: xs) ys := by
  simp [merge, h]

/-! ### Lemmas about `hourlyTimes` -/

theorem hourlyTimes_head? (nxt final : Int) :
    (hourlyTimes nxt final).head? = if nxt < final then some nxt else none := by
  rw [hourlyTimes]
  split <;> simp

theorem hourlyTimes_mem_iff (nxt final t : Int) :
    t ∈ hourlyTimes nxt final ↔ ∃ k : ℕ, t = nxt + k * usPerHour ∧ t < final := by
  constructor
  · intro ht
    induction nxt, final using hourlyTimes.induct with
    | case1 nxt final hlt ih =>
      rw [hourlyTimes, if_pos hlt] at ht
      rcases List.mem_cons.mp ht with rfl | htail
      · exact ⟨0, by simp, hlt⟩
      · obtain ⟨k, hk, hkf⟩ := ih htail
        exact ⟨k + 1, by push_cast [hk]; ring, hkf⟩
    | case2 nxt final hlt =>
      rw [hourlyTimes, if_neg hlt] at ht
      simp at ht
  · rintro ⟨k, rfl, hkf⟩
    induction k generalizing nxt with
    | zero =>
      simp only [Nat.cast_zero, zero_mul, add_zero] at hkf ⊢
      rw [hourlyTimes, if_pos hkf]
      exact List.mem_cons_self _ _
    | succ k ih =>
      have hH : (0:Int) < usPerHour := by norm_num [usPerHour]
      have hlt : nxt < final := by
        have hk0 : (0:Int) ≤ (k:Int) * usPerHour := by positivity
        push_cast at hkf
        nlinarith
      rw [hourlyTimes, if_pos hlt]
      refine List.mem_cons_of_mem _ ?_
      have heq : nxt + (↑(k+1) : Int) * usPerHour
          = (nxt + usPerHour) + (k:Int) * usPerHour := by
        push_cast; ring
      rw [heq] at hkf ⊢
      exact ih _ hkf

theorem hourlyTimes_chain_hour (nxt final : Int) :
    (hourlyTimes nxt final).Chain' (fun a b => b = a + usPerHour) := by
  induction nxt, final using hourlyTimes.induct with
  | case1 nxt final hlt ih =>
    rw [hourlyTimes, if_pos hlt]
    rw [List.chain'_cons']
    refine ⟨?_, ih⟩
    intro b hb
    rw [hourlyTimes_head?] at hb
    split at hb
    · simpa using hb.symm
    · simp at hb
  | case2 nxt final hlt =>
    rw [hourlyTimes, if_neg hlt]
    exact List.chain'_nil

theorem hourlyTimes_sorted_lt (nxt final : Int) :
    (hourlyTimes nxt final).Sorted (· < ·) := by
  rw [List.Sorted, ← List.chain'_iff_pairwise]
  exact (hourlyTimes_chain_hour nxt final).imp (fun a b h => by
    have hH : (0:Int) < usPerHour := by norm_num [usPerHour]
    omega)

/-! ### Lemmas about `allTimes` -/

theorem cumsumAux_length (acc : Int) (l : List Int) :
    (cumsumAux acc l).length = l.length := by
  induction l generalizing acc with
  | nil => simp [cumsumAux]
  | cons v vs ih => simp [cumsumAux, ih]

theorem allTimes_length (ct cd : Int) (draws : List Int) :
    (allTimes ct cd draws).length = draws.length + 1 := by
  simp [allTimes, cumsum, cumsumAux_length]

theorem allTimes_head (ct cd : Int) (draws : List Int) :
    (allTimes ct cd draws).head? = some (ct + cd) := by
  simp [allTimes]

theorem allTimes_chain_aux (c : Int) (acc : Int) (l : List Int)
    (h : ∀ v ∈ l, 920 ≤ v ∧ v < 1140) :
    ((c + acc * usPerSec) :: (cumsumAux acc l).map (fun v => c + v * usPerSec)).Chain'
      (fun a b => 920 * usPerSec ≤ b - a ∧ b - a < 1140 * usPerSec) := by
  induction l generalizing acc with
  | nil => simp [cumsumAux]
  | cons v vs ih =>
    have hv := h v (List.mem_cons_self _ _)
    have htail := ih (acc + v) (fun w hw => h w (List.mem_cons_of_mem _ hw))
    simp only [cumsumAux, List.map_cons] at htail ⊢
    rw [List.chain'_cons]
    refine ⟨?_, htail⟩
    constructor
    · simp only [usPerSec]; nlinarith [hv.1, hv.2]
    · simp only [usPerSec]; nlinarith [hv.1, hv.2]

theorem allTimes_chain_gap (ct cd : Int) (draws : List Int)
    (h : ∀ v ∈ draws, 920 ≤ v ∧ v < 1140) :
    (allTimes ct cd draws).Chain'
      (fun a b => 920 * usPerSec ≤ b - a ∧ b - a < 1140 * usPerSec) := by
  have := allTimes_chain_aux (ct + cd) 0 draws h
  simpa [allTimes, cumsum] using this

theorem allTimes_sorted_lt (ct cd : Int) (draws : List Int)
    (h : ∀ v ∈ draws, 920 ≤ v ∧ v < 1140) :
    (allTimes ct cd draws).Sorted (· < ·) := by
  rw [List.Sorted, ← List.chain'_iff_pairwise]
  exact (allTimes_chain_gap ct cd draws h).imp (fun a b hab => by
    have : (0:Int) < usPerSec := by norm_num [usPerSec]
    nlinarith [hab.1])

/-! ### Lemmas about `get_start_time` -/

theorem replaceMinSec_eq (t : Int) :
    replaceMinSec t = usPerHour * (t / usPerHour) + t % usPerSec := by
  simp only [replaceMinSec, minuteOf, secondOf, usPerMin, usPerSec, usPerHour]
  omega

theorem replaceMinSec_fields (t : Int) :
    minuteOf (replaceMinSec t) = 0 ∧ secondOf (replaceMinSec t) = 0 := by
  simp only [replaceMinSec, minuteOf, secondOf, usPerMin, usPerSec]
  omega

theorem get_start_time_spec (ct off t : Int) (h : get_start_time ct off = some t) :
    ct < t ∧
      ((ct < replaceMinSec ct + off → t = replaceMinSec ct + off) ∧
       (¬ ct < replaceMinSec ct + off → t = replaceMinSec ct + off + usPerHour)) := by
  simp only [get_start_time] at h
  split_ifs at h with h1 h2 <;> simp_all

theorem get_start_time_none_iff (ct off : Int) :
    get_start_time ct off = none ↔
      ¬ ct < replaceMinSec ct + off ∧ ¬ ct < replaceMinSec ct + off + usPerHour := by
  simp only [get_start_time]
  split_ifs with h1 h2 <;> simp_all

theorem get_start_time_total (ct off : Int) (h0 : 0 ≤ off) :
    ∃ t, get_start_time ct off = some t := by
  simp only [get_start_time]
  split_ifs with h1 h2
  · exact ⟨_, rfl⟩
  · exact ⟨_, rfl⟩
  · exfalso
    rw [replaceMinSec_eq] at h2
    simp only [usPerHour, usPerSec] at h2
    omega

/-! ### Lemmas about `get_end_time` -/

/-- The `final_time = all_times[-1]` value inside `get_end_time`. -/
def finalTime (ct cd : Int) (draws : List Int) : Int :=
  (allTimes ct cd draws).getLast (by simp [allTimes])

theorem get_end_time_eq (n : Nat) (ct cd off s : Int) (draws : List Int)
    (hs : get_start_time ct off = some s) :
    get_end_time n ct cd off draws =
      pyGet (merge intLt (allTimes ct cd draws)
          (hourlyTimes s (finalTime ct cd draws))) ((n : Int) - 1) := by
  simp [get_end_time, finalTime, hs]

theorem merge_singleton_gt (c : Int) (h : List Int) (hlt : ∀ y ∈ h, y < c) :
    merge intLt [c] h = h ++ [c] := by
  induction h with
  | nil => simp [merge]
  | cons y ys ih =>
    have hy : intLt c y = false := by
      simp only [intLt, decide_eq_false_iff_not, not_lt]
      exact le_of_lt (hlt y (List.mem_cons_self _ _))
    rw [merge_tie _ _ _ _ _ hy, ih (fun z hz => hlt z (List.mem_cons_of_mem _ hz))]
    simp

theorem pyGet_concat_neg_one (l : List Int) (c : Int) :
    pyGet (l ++ [c]) (-1) = some c := by
  unfold pyGet
  have hlen : ((l ++ [c]).length : Int) = l.length + 1 := by simp
  rw [if_neg (by omega), if_pos (by rw [hlen]; omega)]
  have hidx : ((-1 : Int) + ((l ++ [c]).length : Int)).toNat = l.length := by
    rw [hlen]; omega
  rw [hidx]
  simp [List.get?_eq_getElem?, List.getElem?_concat_length]

/-! ### Claim theorems -/

/-- Claim C1: for all ascending sequences `xs`, `ys` over a totally-ordered
element type, `merge(xs, ys)` is ascending, has length `len(xs)+len(ys)`,
and its elements are exactly the multiset union of `xs` and `ys`. -/
theorem C1_merge_correct {α : Type} [LinearOrder α] (xs ys : List α)
    (hxs : xs.Sorted (· ≤ ·)) (hys : ys.Sorted (· ≤ ·)) :
    (merge (fun a b => decide (a < b)) xs ys).Sorted (· ≤ ·) ∧
    (merge (fun a b => decide (a < b)) xs ys).length = xs.length + ys.length ∧
    (merge (fun a b => decide (a < b)) xs ys : Multiset α) = (xs : Multiset α) + ys :=
  ⟨merge_sorted_of _ (fun a b => by simp) xs ys hxs hys,
   merge_length _ xs ys,
   by
    rw [Multiset.coe_add]
    exact Multiset.coe_eq_coe.mpr (merge_perm _ xs ys)⟩

theorem C1_witness :
    (([1, 3, 5] : List Int).Sorted (· ≤ ·) ∧ ([2, 3, 4] : List Int).Sorted (· ≤ ·)) ∧
    ((merge (fun a b => decide (a < b)) [1, 3, 5] [2, 3, 4] : List Int).Sorted (· ≤ ·) ∧
     (merge (fun a b => decide (a < b)) ([1, 3, 5] : List Int) [2, 3, 4]).length = 3 + 3 ∧
     (merge (fun a b => decide (a < b)) ([1, 3, 5] : List Int) [2, 3, 4] : Multiset Int)
       = (([1, 3, 5] : List Int) : Multiset Int) + ([2, 3, 4] : List Int)) :=
  ⟨⟨by decide, by decide⟩, C1_merge_correct [1, 3, 5] [2, 3, 4] (by decide) (by decide)⟩

/-- Claim C7: when the heads of the two inputs compare as not
`xs[i] < ys[j]` (in particular when they are equal), `merge` appends the
element of the second argument `ys` first — ties are broken in favor of
the second sequence. -/
theorem C7_tie_favors_ys {α : Type} (lt : α → α → Bool) (x y : α)
    (xs ys : List α) (h : lt x y = false) :
    merge lt (x :: xs) (y :: ys) = y :: merge lt (x :: xs) ys :=
  merge_tie lt x y xs ys h

theorem C7_witness :
    ((fun (a b : Int × Nat) => decide (a.1 < b.1)) (5, 0) (5, 1) = false) ∧
    merge (fun (a b : Int × Nat) => decide (a.1 < b.1)) [(5, 0)] [(5, 1)]
      = (5, 1) :: merge (fun (a b : Int × Nat) => decide (a.1 < b.1)) [(5, 0)] [] :=
  ⟨by decide, C7_tie_favors_ys _ (5, 0) (5, 1) [] [] (by decide)⟩

/-- Claim C9: for arbitrary (not necessarily sorted) inputs, `merge` is
total (it is a total Lean function) and returns a list of length
`len(xs)+len(ys)` that is a permutation of `xs ++ ys` (multiset union,
multiplicity preserved); no sortedness hypothesis is needed. -/
theorem C9_merge_total {α : Type} (lt : α → α → Bool) (xs ys : List α) :
    (merge lt xs ys).length = xs.length + ys.length ∧
    (merge lt xs ys).Perm (xs ++ ys) ∧
    (merge lt xs ys : Multiset α) = (xs : Multiset α) + ys :=
  ⟨merge_length lt xs ys, merge_perm lt xs ys,
   by rw [Multiset.coe_add]; exact Multiset.coe_eq_coe.mpr (merge_perm lt xs ys)⟩

/-- Modelled from the spec: "truncate `current_time` to the start of its
hour (zero out minutes/seconds/sub-second)" — the truncation the spec
ascribes to `get_start_time`, zeroing the sub-second component as well. -/
def specTruncHour (t : Int) : Int := usPerHour * (t / usPerHour)

/-- Claim C3, counterexample: at `current_time` 10:30:00.500000 (offset 0)
the code returns 11:00:00.500000, which is strictly greater than
`current_time` but is *neither* "start-of-hour + offset" nor that plus one
hour, because `replace(minute=0, second=0)` keeps the microseconds. -/
theorem C3_counterexample :
    get_start_time 37800500000 0 = some 39600500000 ∧
    (39600500000 : Int) ≠ specTruncHour 37800500000 + 0 ∧
    (39600500000 : Int) ≠ specTruncHour 37800500000 + 0 + usPerHour := by
  refine ⟨by decide, by decide, by decide⟩

/-- Claim C3 (amended): `get_start_time` zeroes the minute and second
fields of `current_time` — but keeps the sub-second component — adds
`offset` to obtain `hour_time`, and returns the first of
`{hour_time, hour_time + 1h}` strictly greater than `current_time`; the
returned value is always strictly greater than `current_time`. -/
theorem C3_amended (ct off t : Int) (h : get_start_time ct off = some t) :
    ct < t ∧
    minuteOf (replaceMinSec ct) = 0 ∧
    secondOf (replaceMinSec ct) = 0 ∧
    replaceMinSec ct = specTruncHour ct + ct % usPerSec ∧
    (ct < replaceMinSec ct + off → t = replaceMinSec ct + off) ∧
    (¬ ct < replaceMinSec ct + off → t = replaceMinSec ct + off + usPerHour) := by
  obtain ⟨h1, h2, h3⟩ := get_start_time_spec ct off t h
  exact ⟨h1, (replaceMinSec_fields ct).1, (replaceMinSec_fields ct).2,
    by rw [replaceMinSec_eq]; rfl, h2, h3⟩

theorem C3_witness :
    get_start_time 37800000000 900000000 = some 40500000000 ∧
    (37800000000 : Int) < 40500000000 := by
  have h : get_start_time 37800000000 900000000 = some 40500000000 := by decide
  exact ⟨h, (C3_amended 37800000000 900000000 40500000000 h).1⟩

/-- Claim C8: `get_start_time` raises its invalid-state error exactly when
neither candidate (`hour_time`, `hour_time + 1h`) is strictly greater than
`current_time`; under the precondition `0 ≤ offset < 1h` the error branch
is unreachable and the function returns a value. -/
theorem C8_error_unreachable (ct off : Int) :
    (get_start_time ct off = none ↔
      ¬ ct < replaceMinSec ct + off ∧ ¬ ct < replaceMinSec ct + off + usPerHour) ∧
    (0 ≤ off → off < usPerHour → ∃ t, get_start_time ct off = some t) :=
  ⟨get_start_time_none_iff ct off, fun h0 _ => get_start_time_total ct off h0⟩

theorem C8_witness :
    (0 : Int) ≤ 0 ∧ (0 : Int) < usPerHour ∧ ∃ t, get_start_time 1000 0 = some t :=
  ⟨le_refl 0, by norm_num [usPerHour],
   (C8_error_unreachable 1000 0).2 (le_refl 0) (by norm_num [usPerHour])⟩

/-- Claim C2, counterexample: with `n = 0` (size-0 random draw) the code
does not raise; Python's index `n - 1 = -1` selects the last element of
the merged list, so `get_end_time` returns a timestamp rather than an
invalid-argument error. -/
theorem C2_counterexample :
    get_end_time 0 63852825600000000 600000000 0 [] = some 63852826200000000 := by
  have hs : get_start_time 63852825600000000 0 = some 63852829200000000 := by decide
  rw [get_end_time_eq 0 _ _ _ _ [] hs]
  have hfin : finalTime 63852825600000000 600000000 [] = 63852826200000000 := by decide
  rw [hfin]
  have hh : hourlyTimes 63852829200000000 63852826200000000 = [] := by
    rw [hourlyTimes]
    norm_num
  rw [hh]
  have hall : allTimes 63852825600000000 600000000 [] = [63852826200000000] := by decide
  rw [hall]
  simp [merge, pyGet]

/-- Claim C2 (amended): for `n = 0` the code returns rather than raising an
invalid-argument error: Python's index `-1` selects the last element of the
merged list, which is `current_time + current_delay`. -/
theorem C2_amended (ct cd off s : Int) (hs : get_start_time ct off = some s) :
    get_end_time 0 ct cd off [] = some (ct + cd) := by
  rw [get_end_time_eq 0 ct cd off s [] hs]
  have hall : allTimes ct cd [] = [ct + cd] := by simp [allTimes, cumsum, cumsumAux]
  have hfin : finalTime ct cd [] = ct + cd := by
    simp only [finalTime, hall, List.getLast_singleton]
  rw [hfin, hall]
  have hmerge : merge intLt [ct + cd] (hourlyTimes s (ct + cd))
      = hourlyTimes s (ct + cd) ++ [ct + cd] := by
    refine merge_singleton_gt _ _ (fun y hy => ?_)
    obtain ⟨k, _, hlt⟩ := (hourlyTimes_mem_iff s (ct + cd) y).mp hy
    exact hlt
  rw [hmerge]
  have hidx : ((0 : Nat) : Int) - 1 = -1 := by norm_num
  rw [hidx, pyGet_concat_neg_one]

theorem C2_witness :
    get_start_time 63852825600000000 0 = some 63852829200000000 ∧
    get_end_time 0 63852825600000000 600000000 0 []
      = some (63852825600000000 + 600000000) :=
  ⟨by decide, C2_amended 63852825600000000 600000000 0 63852829200000000 (by decide)⟩

/-- Claim C4: for `n ≥ 1`, the hourly-check list starts at the value of
`get_start_time`, steps by exactly one hour, and contains exactly the
times of the form `start + k` hours strictly below the final hunt-event
time; `get_end_time` returns element `n - 1` (zero-based, in bounds) of
the merge of the hunt-event list with the hourly-check list. -/
theorem C4_estimator_structure (n : Nat) (ct cd off s : Int) (draws : List Int)
    (hn : 1 ≤ n) (hs : get_start_time ct off = some s) (hlen : draws.length = n) :
    ((hourlyTimes s (finalTime ct cd draws)).head? =
      if s < finalTime ct cd draws then some s else none) ∧
    (hourlyTimes s (finalTime ct cd draws)).Chain' (fun a b => b = a + usPerHour) ∧
    (∀ t : Int, t ∈ hourlyTimes s (finalTime ct cd draws) ↔
      ∃ k : ℕ, t = s + k * usPerHour ∧ t < finalTime ct cd draws) ∧
    get_end_time n ct cd off draws =
      (merge intLt (allTimes ct cd draws)
        (hourlyTimes s (finalTime ct cd draws))).get? (n - 1) ∧
    n - 1 < (merge intLt (allTimes ct cd draws)
        (hourlyTimes s (finalTime ct cd draws))).length := by
  refine ⟨hourlyTimes_head? _ _, hourlyTimes_chain_hour _ _,
    fun t => hourlyTimes_mem_iff _ _ t, ?_, ?_⟩
  · rw [get_end_time_eq n ct cd off s draws hs]
    have h0 : (0 : Int) ≤ (n : Int) - 1 := by omega
    have htn : ((n : Int) - 1).toNat = n - 1 := by omega
    simp only [pyGet, if_pos h0, htn]
  · rw [merge_length, allTimes_length, hlen]
    omega

theorem C4_witness :
    (1 ≤ 3 ∧ get_start_time 63852825600000000 0 = some 63852829200000000 ∧
     ([1000, 1000, 1000] : List Int).length = 3) ∧
    (get_end_time 3 63852825600000000 600000000 0 [1000, 1000, 1000] =
      (merge intLt (allTimes 63852825600000000 600000000 [1000, 1000, 1000])
        (hourlyTimes 63852829200000000
          (finalTime 63852825600000000 600000000 [1000, 1000, 1000]))).get? (3 - 1) ∧
     3 - 1 < (merge intLt (allTimes 63852825600000000 600000000 [1000, 1000, 1000])
        (hourlyTimes 63852829200000000
          (finalTime 63852825600000000 600000000 [1000, 1000, 1000]))).length) :=
  ⟨⟨by decide, by decide, by decide⟩,
   ⟨(C4_estimator_structure 3 63852825600000000 600000000 0 63852829200000000
      [1000, 1000, 1000] (by decide) (by decide) (by decide)).2.2.2.1,
    (C4_estimator_structure 3 63852825600000000 600000000 0 63852829200000000
      [1000, 1000, 1000] (by decide) (by decide) (by decide)).2.2.2.2⟩⟩

/-- Claim C5: for `n ≥ 1` and draws sampled from `[920, 1140)` seconds,
the hunt-event list has exactly `n + 1` timestamps, begins with
`current_time + current_delay`, is strictly ascending, and every gap
between consecutive timestamps is in `[920, 1140)` seconds. -/
theorem C5_hunt_events (n : Nat) (ct cd : Int) (draws : List Int)
    (_hn : 1 ≤ n) (hlen : draws.length = n)
    (hrange : ∀ v ∈ draws, 920 ≤ v ∧ v < 1140) :
    (allTimes ct cd draws).length = n + 1 ∧
    (allTimes ct cd draws).head? = some (ct + cd) ∧
    (allTimes ct cd draws).Sorted (· < ·) ∧
    (allTimes ct cd draws).Chain'
      (fun a b => 920 * usPerSec ≤ b - a ∧ b - a < 1140 * usPerSec) :=
  ⟨by rw [allTimes_length, hlen], allTimes_head ct cd draws,
   allTimes_sorted_lt ct cd draws hrange, allTimes_chain_gap ct cd draws hrange⟩

theorem C5_witness :
    (1 ≤ 3 ∧ ([1000, 1000, 1000] : List Int).length = 3 ∧
     (∀ v ∈ ([1000, 1000, 1000] : List Int), 920 ≤ v ∧ v < 1140)) ∧
    ((allTimes 63852825600000000 600000000 [1000, 1000, 1000]).length = 3 + 1 ∧
     (allTimes 63852825600000000 600000000 [1000, 1000, 1000]).head? =
       some (63852825600000000 + 600000000) ∧
     (allTimes 63852825600000000 600000000 [1000, 1000, 1000]).Sorted (· < ·) ∧
     (allTimes 63852825600000000 600000000 [1000, 1000, 1000]).Chain'
       (fun a b => 920 * usPerSec ≤ b - a ∧ b - a < 1140 * usPerSec)) :=
  ⟨⟨by decide, by decide, by decide⟩,
   C5_hunt_events 3 63852825600000000 600000000 [1000, 1000, 1000]
     (by decide) (by decide) (by decide)⟩

/-- Claim C6, counterexample: in the end-to-end scenario the final hunt
event is at 09:00:00 and the first aligned check time is also 09:00:00,
which is *not* strictly less than the final time, so the hourly-check
list is empty — not `[09:00:00]` as the claim states. -/
theorem C6_counterexample :
    get_start_time 63852825600000000 0 = some 63852829200000000 ∧
    finalTime 63852825600000000 600000000 [1000, 1000, 1000] = 63852829200000000 ∧
    hourlyTimes 63852829200000000 63852829200000000 ≠ [63852829200000000] := by
  refine ⟨by decide, by decide, ?_⟩
  rw [hourlyTimes]
  norm_num

/-- Claim C6 (amended): in the scenario `current_time = 2024-06-01T08:00:00`
(63852825600000000 µs on the proleptic-Gregorian scale), `current_delay`
10 min, `offset` 0, `n = 3`, draws `[1000, 1000, 1000]`: the hunt events
are 08:10:00, 08:26:40, 08:43:20, 09:00:00; the hourly-check list is empty
(09:00:00 is not strictly before the final event); and `get_end_time`
returns the merged element at index 2, namely 08:43:20. -/
theorem C6_amended :
    allTimes 63852825600000000 600000000 [1000, 1000, 1000]
      = [63852826200000000, 63852827200000000, 63852828200000000, 63852829200000000] ∧
    get_start_time 63852825600000000 0 = some 63852829200000000 ∧
    hourlyTimes 63852829200000000
      (finalTime 63852825600000000 600000000 [1000, 1000, 1000]) = [] ∧
    get_end_time 3 63852825600000000 600000000 0 [1000, 1000, 1000]
      = some 63852828200000000 := by
  have hall : allTimes 63852825600000000 600000000 [1000, 1000, 1000]
      = [63852826200000000, 63852827200000000, 63852828200000000, 63852829200000000] := by
    decide
  have hs : get_start_time 63852825600000000 0 = some 63852829200000000 := by decide
  have hfin : finalTime 63852825600000000 600000000 [1000, 1000, 1000]
      = 63852829200000000 := by decide
  have hh : hourlyTimes 63852829200000000 63852829200000000 = [] := by
    rw [hourlyTimes]
    norm_num
  refine ⟨hall, hs, by rw [hfin]; exact hh, ?_⟩
  rw [get_end_time_eq 3 _ _ _ _ _ hs, hfin, hh, hall]
  have hm : merge intLt
      [(63852826200000000 : Int), 63852827200000000, 63852828200000000, 63852829200000000] []
      = [63852826200000000, 63852827200000000, 63852828200000000, 63852829200000000] := by
    rw [merge]
    simp
  rw [hm]
  decide

/-- Claim C10: whenever `get_start_time` returns and the draws are in
range, the hourly-check list is strictly ascending with consecutive
elements exactly one hour apart, every element lies in
`[start, final_time)`, and both lists passed to `merge` are ascending. -/
theorem C10_merge_preconditions (n : Nat) (ct cd off s : Int) (draws : List Int)
    (_hn : 1 ≤ n) (_hs : get_start_time ct off = some s) (_hlen : draws.length = n)
    (hrange : ∀ v ∈ draws, 920 ≤ v ∧ v < 1140) :
    (hourlyTimes s (finalTime ct cd draws)).Chain' (fun a b => b = a + usPerHour) ∧
    (hourlyTimes s (finalTime ct cd draws)).Sorted (· < ·) ∧
    (∀ t ∈ hourlyTimes s (finalTime ct cd draws),
      s ≤ t ∧ t < finalTime ct cd draws) ∧
    (allTimes ct cd draws).Sorted (· ≤ ·) ∧
    (hourlyTimes s (finalTime ct cd draws)).Sorted (· ≤ ·) := by
  refine ⟨hourlyTimes_chain_hour _ _, hourlyTimes_sorted_lt _ _, ?_, ?_, ?_⟩
  · intro t ht
    obtain ⟨k, rfl, hk⟩ := (hourlyTimes_mem_iff _ _ t).mp ht
    refine ⟨?_, hk⟩
    have hk0 : (0 : Int) ≤ (k : Int) * usPerHour :=
      mul_nonneg (Int.natCast_nonneg k) (by norm_num [usPerHour])
    omega
  · exact (allTimes_sorted_lt ct cd draws hrange).imp le_of_lt
  · exact (hourlyTimes_sorted_lt _ _).imp le_of_lt

theorem C10_witness :
    (1 ≤ 3 ∧ get_start_time 63852825600000000 0 = some 63852829200000000 ∧
     ([920, 920, 920] : List Int).length = 3 ∧
     (∀ v ∈ ([920, 920, 920] : List Int), 920 ≤ v ∧ v < 1140)) ∧
    ((hourlyTimes 63852829200000000
        (finalTime 63852825600000000 3600000000 [920, 920, 920])).Chain'
      (fun a b => b = a + usPerHour) ∧
     (hourlyTimes 63852829200000000
        (finalTime 63852825600000000 3600000000 [920, 920, 920])).Sorted (· < ·) ∧
     (∀ t ∈ hourlyTimes 63852829200000000
        (finalTime 63852825600000000 3600000000 [920, 920, 920]),
        63852829200000000 ≤ t ∧ t < finalTime 63852825600000000 3600000000 [920, 920, 920]) ∧
     (allTimes 63852825600000000 3600000000 [920, 920, 920]).Sorted (· ≤ ·) ∧
     (hourlyTimes 63852829200000000
        (finalTime 63852825600000000 3600000000 [920, 920, 920])).Sorted (· ≤ ·)) :=
  ⟨⟨by decide, by decide, by decide, by decide⟩,
   C10_merge_preconditions 3 63852825600000000 3600000000 0 63852829200000000
     [920, 920, 920] (by decide) (by decide) (by decide) (by decide)⟩

end Mousehunt
